import Mathlib

/-!
Verification of the URL-shortener core of `backend-test-submission/server.js`.

The server keeps two in-memory JS `Map`s, `urlDatabase` and `clickAnalytics`,
keyed by shortcode.  We embed a JS `Map` as an association list
`List (String × α)` with first-match lookup; `Map.set` replaces in place or
appends, `Map.delete` removes the (unique) entry.  Timestamps (`Date`,
ISO-8601 strings) are embedded as `Int` milliseconds since the epoch;
`Date` comparison on the parsed strings is integer comparison.  JS `null` /
absent header values are `Option`; the JS `x || y` idiom on strings also
treats `""` as falsy, which the embedding reproduces.
-/

namespace UrlShortener

/-- First-match lookup in an association list (JS `Map.get`). -/
def lookupK {α : Type} (k : String) : List (String × α) → Option α
  | [] => none
  | (k', v) :: rest => if k' = k then some v else lookupK k rest

/-- JS `Map.has`. -/
def hasK {α : Type} (k : String) (l : List (String × α)) : Bool :=
  (lookupK k l).isSome

/-- JS `Map.set`: replace the entry in place if the key is present, else append. -/
def setK {α : Type} (k : String) (v : α) : List (String × α) → List (String × α)
  | [] => [(k, v)]
  | (k', v') :: rest => if k' = k then (k, v) :: rest else (k', v') :: setK k v rest

/-- JS `Map.delete`: remove the first entry with the key (the only one, since
JS `Map` keys are unique). -/
def delK {α : Type} (k : String) : List (String × α) → List (String × α)
  | [] => []
  | (k', v') :: rest => if k' = k then rest else (k', v') :: delK k rest

/-- Delete a batch of keys, one `Map.delete` per key. -/
def delAll {α : Type} (ks : List String) (m : List (String × α)) : List (String × α) :=
  ks.foldl (fun acc k => delK k acc) m

/-- The keys of an association list are pairwise distinct (always true of a
JS `Map`). -/
def keysNodup {α : Type} (l : List (String × α)) : Prop :=
  (l.map Prod.fst).Nodup

instance {α : Type} (l : List (String × α)) : Decidable (keysNodup l) := by
  unfold keysNodup; infer_instance

/-- JS truthiness of a possibly-absent string: `undefined`/`null` and `""`
are falsy. -/
def truthyStr : Option String → Bool
  | none => false
  | some s => !(s == "")

/-- JS `x || null` on a possibly-absent string: `""` is normalised to null. -/
def orNull : Option String → Option String
  | none => none
  | some s => if s = "" then none else some s

/-- JS `x || d` on a possibly-null string: null and `""` fall back to `d`. -/
def orDefaultOpt (o : Option String) (d : String) : String :=
  match o with
  | none => d
  | some s => if s = "" then d else s

/-- JS `x || d` on a plain string: `""` falls back to `d`. -/
def orDefaultStr (s d : String) : String :=
  if s = "" then d else s

/-! ## Data model -/

/-- The value stored in `urlDatabase` (`urlRecord` in the source). -/
structure UrlRecord where
  originalUrl : String
  shortCode : String
  createdAt : Int
  expiry : Int
  clicks : Nat
  deriving DecidableEq, Repr

/-- One element of a `clickAnalytics` entry (`clickData` built in the
redirect handler).  `referrer` and `userAgent` are `req.get(...) || null`;
`ip` is `req.ip || req.connection.remoteAddress`; `location` is always the
string `'Unknown'` at write time. -/
structure ClickEvent where
  timestamp : Int
  referrer : Option String
  userAgent : Option String
  ip : String
  location : String
  deriving DecidableEq, Repr

/-- The two global maps of the server. -/
structure State where
  urlDatabase : List (String × UrlRecord)
  clickAnalytics : List (String × List ClickEvent)
  deriving DecidableEq, Repr

/-- The empty store at process start. -/
def initState : State := { urlDatabase := [], clickAnalytics := [] }

/-! ## Pure helpers of the source -/

/-- The 62-character alphabet of `generateShortCode`. -/
def shortCodeChars : List Char :=
  "abcdefghijklmnopqrstuvwxyzABCDEFGHIJKLMNOPQRSTUVWXYZ0123456789".toList

/-- `generateShortCode`: six characters, each picked by an index
`Math.floor(Math.random() * chars.length)`, here supplied as `Fin 62` (the
index is always in range, so the `getD` default is never used). -/
def generateShortCode (roll : Fin 6 → Fin 62) : String :=
  String.mk ((List.finRange 6).map fun i => shortCodeChars.getD (roll i).val 'a')

/-- Whether the first list is a prefix of the second. -/
def listStartsWith : List Char → List Char → Bool
  | [], _ => true
  | _ :: _, [] => false
  | c :: cs, d :: ds => c == d && listStartsWith cs ds

/-- `isValidUrl`: the source parses with the platform `new URL` and accepts
protocols `http:`/`https:`.  The WHATWG parser is a platform builtin, not
repository code; we embed its accept set as the scheme-prefix test, which is
all the claims depend on. -/
def isValidUrl (s : String) : Bool :=
  listStartsWith "http://".data s.data || listStartsWith "https://".data s.data

/-- `isValidShortCode`: the regex `^[a-zA-Z0-9]{3,10}$`. -/
def isValidShortCode (s : String) : Bool :=
  decide (3 ≤ s.length) && decide (s.length ≤ 10) && s.data.all Char.isAlphanum

/-- `isExpired`: `new Date() > new Date(expiryDate)` — strict comparison. -/
def isExpired (now expiry : Int) : Bool :=
  decide (expiry < now)

/-- The body of the `do { ... } while (urlDatabase.has(...))` allocation
loop: generate a candidate from the `i`-th draw of the random stream, retry
while the key is taken.  The source loop is unbounded; `fuel` bounds how many
draws of the stream we examine (`none` means no free candidate appeared among
them, in which case the source would simply keep looping). -/
def allocLoop {α : Type} (db : List (String × α)) (gen : ℕ → Fin 6 → Fin 62) :
    ℕ → ℕ → Option String
  | 0, _ => none
  | fuel + 1, i =>
    let c := generateShortCode (gen i)
    if hasK c db then allocLoop db gen fuel (i + 1) else some c

/-! ## Record creation (`POST /shorturls`) -/

/-- The distinct failure results of `POST /shorturls`.  The first five match
the source's early returns (HTTP 400/400/400/400/409); `allocatorSpin` is the
embedding artifact for running out of `fuel` in the allocation loop. -/
inductive CreateErr where
  | missingUrl
  | invalidUrl
  | invalidValidity
  | invalidShortcodeFormat
  | collision
  | allocatorSpin
  deriving DecidableEq, Repr

/-- The success payload of `POST /shorturls`: the allocated shortcode (the
trailing segment of the returned `shortLink`) and the expiry timestamp. -/
structure CreateOk where
  shortCode : String
  expiry : Int
  deriving DecidableEq, Repr

/-- The request body `{url, validity, shortcode}`.  `none` is an absent
field (JS `undefined`); `validity` is a JS number, embedded as `ℚ` so that
non-integers are representable for `Number.isInteger`. -/
structure CreateReq where
  url : Option String
  validity : Option ℚ
  shortcode : Option String
  deriving DecidableEq, Repr

/-- The validity check `validity && (!Number.isInteger(validity) || validity < 1)`:
note the leading truthiness test, under which `0` skips validation. -/
def validityBad (q : ℚ) : Bool :=
  (!decide (q = 0)) && ((!decide (q.den = 1)) || decide (q < 1))

/-- The shortcode-allocation part of the handler: the custom-code branch
(format check, `urlDatabase.has` collision check) or the random do-while
loop. -/
def allocateCode (st : State) (gen : ℕ → Fin 6 → Fin 62) (fuel : ℕ)
    (requested : Option String) : Except CreateErr String :=
  if truthyStr requested then
    let sc := requested.getD ""
    if !isValidShortCode sc then .error .invalidShortcodeFormat
    else if hasK sc st.urlDatabase then .error .collision
    else .ok sc
  else
    match allocLoop st.urlDatabase gen fuel 0 with
    | some c => .ok c
    | none => .error .allocatorSpin

/-- `POST /shorturls`.  `now` is the instant of the request; destructuring
gives `validity` the default `30` when the field is absent; the expiry is
`now` plus `validity` minutes (`setMinutes` rolls overflow into the hour, so
this is exactly `+ validity * 60000` ms). -/
def createShortUrl (now : Int) (gen : ℕ → Fin 6 → Fin 62) (fuel : ℕ)
    (req : CreateReq) (st : State) : Except CreateErr CreateOk × State :=
  let validity := req.validity.getD 30
  if !truthyStr req.url then (.error .missingUrl, st)
  else if !isValidUrl (req.url.getD "") then (.error .invalidUrl, st)
  else if validityBad validity then (.error .invalidValidity, st)
  else
    match allocateCode st gen fuel req.shortcode with
    | .error e => (.error e, st)
    | .ok code =>
      let expiryTime := now + 60000 * validity.num
      let urlRecord : UrlRecord :=
        { originalUrl := req.url.getD ""
          shortCode := code
          createdAt := now
          expiry := expiryTime
          clicks := 0 }
      (.ok { shortCode := code, expiry := expiryTime },
       { urlDatabase := setK code urlRecord st.urlDatabase
         clickAnalytics := setK code [] st.clickAnalytics })

/-- The `shortLink` the handler returns: `${protocol}://${host}/${code}`,
with the protocol-and-host part abstracted as `hostPart`. -/
def shortLinkOf (hostPart code : String) : String :=
  hostPart ++ "/" ++ code

/-! ## Redirect (`GET /:shortCode`) and stats (`GET /shorturls/:shortCode`) -/

/-- Failures shared by the redirect and stats handlers. -/
inductive ResolveErr where
  | notFound
  | expired
  deriving DecidableEq, Repr

/-- The HTTP status each failure maps to (404 vs 410 in the source). -/
def statusOf : ResolveErr → ℕ
  | .notFound => 404
  | .expired => 410

/-- The request metadata the redirect handler reads. -/
structure ReqMeta where
  referer : Option String
  userAgent : Option String
  ip : String
  deriving DecidableEq, Repr

/-- `GET /:shortCode`: look up, lazily delete and fail when expired,
otherwise append a click event, bump `clicks` and return `originalUrl`
for the 302 redirect. -/
def resolveAndRecord (now : Int) (meta : ReqMeta) (shortCode : String)
    (st : State) : Except ResolveErr String × State :=
  match lookupK shortCode st.urlDatabase with
  | none => (.error .notFound, st)
  | some urlData =>
    if isExpired now urlData.expiry then
      (.error .expired,
       { urlDatabase := delK shortCode st.urlDatabase
         clickAnalytics := delK shortCode st.clickAnalytics })
    else
      let clickData : ClickEvent :=
        { timestamp := now
          referrer := orNull meta.referer
          userAgent := orNull meta.userAgent
          ip := meta.ip
          location := "Unknown" }
      let analytics := (lookupK shortCode st.clickAnalytics).getD []
      (.ok urlData.originalUrl,
       { urlDatabase := setK shortCode { urlData with clicks := urlData.clicks + 1 }
           st.urlDatabase
         clickAnalytics := setK shortCode (analytics ++ [clickData]) st.clickAnalytics })

/-- One element of the `clickData` array in the stats response. -/
structure StatsClick where
  timestamp : Int
  referrer : String
  location : String
  deriving DecidableEq, Repr

/-- The stats response body. -/
structure StatsResponse where
  clicks : Nat
  originalUrl : String
  createdAt : Int
  expiry : Int
  clickData : List StatsClick
  deriving DecidableEq, Repr

/-- The presentation mapping of a stored click:
`{timestamp, referrer: click.referrer || 'Direct', location: click.location || 'Unknown'}`. -/
def presentClick (c : ClickEvent) : StatsClick :=
  { timestamp := c.timestamp
    referrer := orDefaultOpt c.referrer "Direct"
    location := orDefaultStr c.location "Unknown" }

/-- `GET /shorturls/:shortCode`: same lookup and lazy-expiry deletion as the
redirect, but the success path only reads. -/
def getStats (now : Int) (shortCode : String) (st : State) :
    Except ResolveErr StatsResponse × State :=
  match lookupK shortCode st.urlDatabase with
  | none => (.error .notFound, st)
  | some urlData =>
    if isExpired now urlData.expiry then
      (.error .expired,
       { urlDatabase := delK shortCode st.urlDatabase
         clickAnalytics := delK shortCode st.clickAnalytics })
    else
      let clickData := (lookupK shortCode st.clickAnalytics).getD []
      (.ok { clicks := urlData.clicks
             originalUrl := urlData.originalUrl
             createdAt := urlData.createdAt
             expiry := urlData.expiry
             clickData := clickData.map presentClick }, st)

/-! ## Listing (`GET /api/urls`) and the expiry sweep -/

/-- One element of the `GET /api/urls` response. -/
structure ActiveEntry where
  shortCode : String
  originalUrl : String
  shortLink : String
  createdAt : Int
  expiry : Int
  clicks : Nat
  deriving DecidableEq, Repr

/-- `GET /api/urls`: project every non-expired record, in store order;
no mutation. -/
def listActive (now : Int) (hostPart : String) (st : State) : List ActiveEntry :=
  st.urlDatabase.filterMap fun kv =>
    if isExpired now kv.2.expiry then none
    else some
      { shortCode := kv.1
        originalUrl := kv.2.originalUrl
        shortLink := shortLinkOf hostPart kv.1
        createdAt := kv.2.createdAt
        expiry := kv.2.expiry
        clicks := kv.2.clicks }

/-- One tick of the `setInterval` sweep: every entry of `urlDatabase` whose
expiry has passed is deleted from both maps.  Iterating a JS `Map` while
deleting visited keys visits each original entry once, so the surviving
`urlDatabase` is the filter of the live entries and `clickAnalytics` loses
exactly the keys of the expired entries. -/
def sweep (now : Int) (st : State) : State :=
  { urlDatabase := st.urlDatabase.filter fun kv => !isExpired now kv.2.expiry
    clickAnalytics :=
      delAll ((st.urlDatabase.filter fun kv => isExpired now kv.2.expiry).map Prod.fst)
        st.clickAnalytics }

/-! ## The server as a transition system -/

/-- One observable operation of the server, as a relation on the pair of
stores: a `POST /shorturls`, a redirect, a stats request, or a sweep tick.
(`GET /api/urls` never mutates, so it contributes no transition.) -/
inductive Step : State → State → Prop where
  | create (now : Int) (gen : ℕ → Fin 6 → Fin 62) (fuel : ℕ) (req : CreateReq)
      (st : State) : Step st (createShortUrl now gen fuel req st).2
  | redirect (now : Int) (meta : ReqMeta) (shortCode : String) (st : State) :
      Step st (resolveAndRecord now meta shortCode st).2
  | stats (now : Int) (shortCode : String) (st : State) :
      Step st (getStats now shortCode st).2
  | sweepTick (now : Int) (st : State) : Step st (sweep now st)

/-- Stores reachable from the empty store at process start. -/
inductive Reachable : State → Prop where
  | init : Reachable initState
  | step {st st' : State} : Reachable st → Step st st' → Reachable st'

/-- The cross-map invariant the handlers maintain: both maps have distinct
keys, the two key sets coincide, and every record's `clicks` equals the
length of its click log. -/
def Inv (st : State) : Prop :=
  keysNodup st.urlDatabase ∧ keysNodup st.clickAnalytics ∧
  (∀ k, (lookupK k st.urlDatabase).isSome = (lookupK k st.clickAnalytics).isSome) ∧
  (∀ k r, lookupK k st.urlDatabase = some r →
    ∃ log, lookupK k st.clickAnalytics = some log ∧ r.clicks = log.length)

/-! ## Concrete sample values -/

/-- A fixed random stream: every draw picks index 0, so every generated
candidate is `"aaaaaa"`. -/
def gen0 : ℕ → Fin 6 → Fin 62 := fun _ _ => 0

/-- Request metadata with no Referer and no User-Agent header. -/
def metaNone : ReqMeta := { referer := none, userAgent := none, ip := "127.0.0.1" }

/-- A record whose expiry is the instant `5`. -/
def recEx5 : UrlRecord :=
  { originalUrl := "https://example.com", shortCode := "abc", createdAt := 0,
    expiry := 5, clicks := 0 }

/-- A store holding only `recEx5` under `"abc"`. -/
def stEx5 : State :=
  { urlDatabase := [("abc", recEx5)], clickAnalytics := [("abc", [])] }

/-- A record that expired at instant `0`. -/
def recExp0 : UrlRecord :=
  { originalUrl := "https://old.example.com", shortCode := "abc", createdAt := 0,
    expiry := 0, clicks := 0 }

/-- A store holding only the expired (but unswept) `recExp0` under `"abc"`. -/
def stExp0 : State :=
  { urlDatabase := [("abc", recExp0)], clickAnalytics := [("abc", [])] }

/-- A live record expiring at instant `99`. -/
def recLive : UrlRecord :=
  { originalUrl := "https://live.example.com", shortCode := "xyz", createdAt := 0,
    expiry := 99, clicks := 0 }

/-- A store with one expired and one live record. -/
def stMix : State :=
  { urlDatabase := [("abc", recExp0), ("xyz", recLive)],
    clickAnalytics := [("abc", []), ("xyz", [])] }

/-- A record with one recorded click. -/
def recClicked : UrlRecord :=
  { originalUrl := "https://example.com", shortCode := "abc", createdAt := 0,
    expiry := 100, clicks := 1 }

/-- A click event whose Referer was absent (stored as null). -/
def evNull : ClickEvent :=
  { timestamp := 3, referrer := none, userAgent := none, ip := "127.0.0.1",
    location := "Unknown" }

/-- A store holding `recClicked` and its one-event click log. -/
def stClicked : State :=
  { urlDatabase := [("abc", recClicked)], clickAnalytics := [("abc", [evNull])] }

/-- A well-formed creation request with custom code `"abc"` and no validity. -/
def reqBasic : CreateReq :=
  { url := some "https://example.com", validity := none, shortcode := some "abc" }

/-- The same request with the falsy validity `0`. -/
def reqZeroValidity : CreateReq :=
  { url := some "https://example.com", validity := some 0, shortcode := some "abc" }

/-- The same request with the truthy invalid validity `-3`. -/
def reqNegValidity : CreateReq :=
  { url := some "https://example.com", validity := some (-3), shortcode := some "abc" }

/-- A request with the url field absent. -/
def reqNoUrl : CreateReq := { url := none, validity := none, shortcode := none }

/-- The store after creating `reqBasic` in the empty store at instant 0. -/
def st1 : State := (createShortUrl 0 gen0 1 reqBasic initState).2

/-- The store after additionally redirecting `"abc"` at instant 1. -/
def st2 : State := (resolveAndRecord 1 metaNone "abc" st1).2

/-! ## Lemmas about the map primitives -/

theorem lookupK_cons_eq {α : Type} {a k : String} (h : a = k) (b : α)
    (rest : List (String × α)) : lookupK k ((a, b) :: rest) = some b := by
  simp [lookupK, h]

theorem lookupK_cons_ne {α : Type} {a k : String} (h : a ≠ k) (b : α)
    (rest : List (String × α)) : lookupK k ((a, b) :: rest) = lookupK k rest := by
  simp [lookupK, h]

theorem setK_cons_eq {α : Type} {a k : String} (h : a = k) (v b : α)
    (rest : List (String × α)) : setK k v ((a, b) :: rest) = (k, v) :: rest := by
  simp [setK, h]

theorem setK_cons_ne {α : Type} {a k : String} (h : a ≠ k) (v b : α)
    (rest : List (String × α)) :
    setK k v ((a, b) :: rest) = (a, b) :: setK k v rest := by
  simp [setK, h]

theorem delK_cons_eq {α : Type} {a k : String} (h : a = k) (b : α)
    (rest : List (String × α)) : delK k ((a, b) :: rest) = rest := by
  simp [delK, h]

theorem delK_cons_ne {α : Type} {a k : String} (h : a ≠ k) (b : α)
    (rest : List (String × α)) : delK k ((a, b) :: rest) = (a, b) :: delK k rest := by
  simp [delK, h]

theorem lookupK_setK_self {α : Type} (k : String) (v : α) (l : List (String × α)) :
    lookupK k (setK k v l) = some v := by
  induction l with
  | nil => simp [setK, lookupK]
  | cons kv rest ih =>
    obtain ⟨a, b⟩ := kv
    by_cases ha : a = k
    · rw [setK_cons_eq ha, lookupK_cons_eq rfl]
    · rw [setK_cons_ne ha, lookupK_cons_ne ha, ih]

theorem lookupK_setK_ne {α : Type} {k k' : String} (h : k' ≠ k) (v : α)
    (l : List (String × α)) : lookupK k' (setK k v l) = lookupK k' l := by
  induction l with
  | nil => simp [setK, lookupK, Ne.symm h]
  | cons kv rest ih =>
    obtain ⟨a, b⟩ := kv
    by_cases ha : a = k
    · subst ha
      rw [setK_cons_eq rfl, lookupK_cons_ne (Ne.symm h), lookupK_cons_ne (Ne.symm h)]
    · rw [setK_cons_ne ha]
      by_cases ha' : a = k'
      · rw [lookupK_cons_eq ha', lookupK_cons_eq ha']
      · rw [lookupK_cons_ne ha', lookupK_cons_ne ha', ih]

theorem lookupK_eq_some_mem {α : Type} {k : String} {v : α}
    {l : List (String × α)} (h : lookupK k l = some v) : (k, v) ∈ l := by
  induction l with
  | nil => simp [lookupK] at h
  | cons kv rest ih =>
    obtain ⟨a, b⟩ := kv
    by_cases ha : a = k
    · subst ha
      rw [lookupK_cons_eq rfl] at h
      injection h with h2
      subst h2
      exact List.mem_cons_self _ _
    · rw [lookupK_cons_ne ha] at h
      exact List.mem_cons_of_mem _ (ih h)

theorem lookupK_none_of_not_mem_keys {α : Type} {k : String}
    {l : List (String × α)} (h : k ∉ l.map Prod.fst) : lookupK k l = none := by
  induction l with
  | nil => rfl
  | cons kv rest ih =>
    obtain ⟨a, b⟩ := kv
    simp only [List.map_cons, List.mem_cons, not_or] at h
    rw [lookupK_cons_ne (Ne.symm h.1)]
    exact ih h.2

theorem mem_lookupK_of_nodup {α : Type} {k : String} {v : α}
    {l : List (String × α)} (hnd : keysNodup l) (hmem : (k, v) ∈ l) :
    lookupK k l = some v := by
  induction l with
  | nil => simp at hmem
  | cons kv rest ih =>
    obtain ⟨a, b⟩ := kv
    simp only [keysNodup, List.map_cons, List.nodup_cons] at hnd
    rcases List.mem_cons.mp hmem with h | h
    · have h1 : k = a := congrArg Prod.fst h
      have h2 : v = b := congrArg Prod.snd h
      subst h1
      subst h2
      exact lookupK_cons_eq rfl v rest
    · have ha : a ≠ k := by
        intro hh
        subst hh
        exact hnd.1 (List.mem_map.mpr ⟨(a, v), h, rfl⟩)
      rw [lookupK_cons_ne ha]
      exact ih hnd.2 h

theorem setK_mem_cases {α : Type} {k k' : String} {v b : α}
    {l : List (String × α)} (h : (k', b) ∈ setK k v l) :
    (k = k' ∧ v = b) ∨ (k', b) ∈ l := by
  induction l with
  | nil =>
    simp only [setK, List.mem_singleton] at h
    exact Or.inl ⟨(congrArg Prod.fst h).symm, (congrArg Prod.snd h).symm⟩
  | cons kv rest ih =>
    obtain ⟨a, c⟩ := kv
    by_cases ha : a = k
    · rw [setK_cons_eq ha] at h
      rcases List.mem_cons.mp h with h | h
      · exact Or.inl ⟨(congrArg Prod.fst h).symm, (congrArg Prod.snd h).symm⟩
      · exact Or.inr (List.mem_cons_of_mem _ h)
    · rw [setK_cons_ne ha] at h
      rcases List.mem_cons.mp h with h | h
      · exact Or.inr (List.mem_cons.mpr (Or.inl h))
      · rcases ih h with h1 | h2
        · exact Or.inl h1
        · exact Or.inr (List.mem_cons_of_mem _ h2)

theorem keysNodup_setK {α : Type} (k : String) (v : α) {l : List (String × α)}
    (h : keysNodup l) : keysNodup (setK k v l) := by
  induction l with
  | nil => simp [setK, keysNodup]
  | cons kv rest ih =>
    obtain ⟨a, b⟩ := kv
    simp only [keysNodup, List.map_cons, List.nodup_cons] at h
    by_cases ha : a = k
    · subst ha
      rw [setK_cons_eq rfl]
      simp only [keysNodup, List.map_cons, List.nodup_cons]
      exact h
    · rw [setK_cons_ne ha]
      simp only [keysNodup, List.map_cons, List.nodup_cons]
      refine ⟨?_, ih h.2⟩
      intro hmem
      rcases List.mem_map.mp hmem with ⟨xy, hxy, hfst⟩
      obtain ⟨x, y⟩ := xy
      have hx : x = a := hfst
      subst hx
      rcases setK_mem_cases hxy with h1 | h2
      · exact ha h1.1.symm
      · exact h.1 (List.mem_map.mpr ⟨(x, y), h2, rfl⟩)

theorem delK_subset {α : Type} {k : String} {x : String × α}
    {l : List (String × α)} (h : x ∈ delK k l) : x ∈ l := by
  induction l with
  | nil => exact absurd h (List.not_mem_nil x)
  | cons kv rest ih =>
    obtain ⟨a, b⟩ := kv
    by_cases ha : a = k
    · rw [delK_cons_eq ha] at h
      exact List.mem_cons_of_mem _ h
    · rw [delK_cons_ne ha] at h
      rcases List.mem_cons.mp h with h | h
      · exact List.mem_cons.mpr (Or.inl h)
      · exact List.mem_cons_of_mem _ (ih h)

theorem lookupK_delK_ne {α : Type} {k k' : String} (h : k' ≠ k)
    (l : List (String × α)) : lookupK k' (delK k l) = lookupK k' l := by
  induction l with
  | nil => rfl
  | cons kv rest ih =>
    obtain ⟨a, b⟩ := kv
    by_cases ha : a = k
    · subst ha
      rw [delK_cons_eq rfl, lookupK_cons_ne (Ne.symm h)]
    · rw [delK_cons_ne ha]
      by_cases ha' : a = k'
      · rw [lookupK_cons_eq ha', lookupK_cons_eq ha']
      · rw [lookupK_cons_ne ha', lookupK_cons_ne ha', ih]

theorem lookupK_delK_self {α : Type} {k : String} {l : List (String × α)}
    (hnd : keysNodup l) : lookupK k (delK k l) = none := by
  induction l with
  | nil => rfl
  | cons kv rest ih =>
    obtain ⟨a, b⟩ := kv
    simp only [keysNodup, List.map_cons, List.nodup_cons] at hnd
    by_cases ha : a = k
    · subst ha
      rw [delK_cons_eq rfl]
      exact lookupK_none_of_not_mem_keys hnd.1
    · rw [delK_cons_ne ha, lookupK_cons_ne ha]
      exact ih hnd.2

theorem lookupK_delK_none {α : Type} {k k' : String} {l : List (String × α)}
    (h : lookupK k l = none) : lookupK k (delK k' l) = none := by
  induction l with
  | nil => rfl
  | cons kv rest ih =>
    obtain ⟨a, b⟩ := kv
    by_cases ha : a = k
    · rw [lookupK_cons_eq ha] at h
      simp at h
    · rw [lookupK_cons_ne ha] at h
      by_cases ha' : a = k'
      · rw [delK_cons_eq ha']
        exact h
      · rw [delK_cons_ne ha', lookupK_cons_ne ha]
        exact ih h

theorem keysNodup_delK {α : Type} (k : String) {l : List (String × α)}
    (h : keysNodup l) : keysNodup (delK k l) := by
  induction l with
  | nil => exact h
  | cons kv rest ih =>
    obtain ⟨a, b⟩ := kv
    simp only [keysNodup, List.map_cons, List.nodup_cons] at h
    by_cases ha : a = k
    · rw [delK_cons_eq ha]
      exact h.2
    · rw [delK_cons_ne ha]
      simp only [keysNodup, List.map_cons, List.nodup_cons]
      refine ⟨?_, ih h.2⟩
      intro hmem
      rcases List.mem_map.mp hmem with ⟨xy, hxy, hfst⟩
      obtain ⟨x, y⟩ := xy
      have hx : x = a := hfst
      subst hx
      exact h.1 (List.mem_map.mpr ⟨(x, y), delK_subset hxy, rfl⟩)

theorem lookupK_delAll_not_mem {α : Type} {k : String} {ks : List String}
    (h : k ∉ ks) (m : List (String × α)) :
    lookupK k (delAll ks m) = lookupK k m := by
  induction ks generalizing m with
  | nil => rfl
  | cons a tl ih =>
    simp only [List.mem_cons, not_or] at h
    show lookupK k (delAll tl (delK a m)) = lookupK k m
    rw [ih h.2, lookupK_delK_ne h.1]

theorem lookupK_delAll_none {α : Type} {k : String} (ks : List String)
    {m : List (String × α)} (h : lookupK k m = none) :
    lookupK k (delAll ks m) = none := by
  induction ks generalizing m with
  | nil => exact h
  | cons a tl ih =>
    show lookupK k (delAll tl (delK a m)) = none
    exact ih (lookupK_delK_none h)

theorem keysNodup_delAll {α : Type} (ks : List String) {m : List (String × α)}
    (h : keysNodup m) : keysNodup (delAll ks m) := by
  induction ks generalizing m with
  | nil => exact h
  | cons a tl ih =>
    show keysNodup (delAll tl (delK a m))
    exact ih (keysNodup_delK a h)

theorem lookupK_delAll_mem {α : Type} {k : String} {ks : List String}
    (hmem : k ∈ ks) {m : List (String × α)} (hnd : keysNodup m) :
    lookupK k (delAll ks m) = none := by
  induction ks generalizing m with
  | nil => simp at hmem
  | cons a tl ih =>
    show lookupK k (delAll tl (delK a m)) = none
    by_cases ha : k = a
    · subst ha
      exact lookupK_delAll_none tl (lookupK_delK_self hnd)
    · rcases List.mem_cons.mp hmem with h | h
      · exact absurd h ha
      · exact ih h (keysNodup_delK a hnd)

theorem lookupK_filter_none {α : Type} {k : String} (p : String × α → Bool)
    {l : List (String × α)} (h : lookupK k l = none) :
    lookupK k (l.filter p) = none := by
  induction l with
  | nil => rfl
  | cons kv rest ih =>
    obtain ⟨a, b⟩ := kv
    by_cases ha : a = k
    · rw [lookupK_cons_eq ha] at h
      simp at h
    · rw [lookupK_cons_ne ha] at h
      by_cases hp : p (a, b)
      · rw [List.filter_cons, if_pos hp, lookupK_cons_ne ha]
        exact ih h
      · rw [List.filter_cons, if_neg hp]
        exact ih h

theorem lookupK_filter_some {α : Type} {k : String} {v : α}
    (p : String × α → Bool) {l : List (String × α)} (hnd : keysNodup l)
    (h : lookupK k l = some v) :
    lookupK k (l.filter p) = if p (k, v) then some v else none := by
  induction l with
  | nil => simp [lookupK] at h
  | cons kv rest ih =>
    obtain ⟨a, b⟩ := kv
    simp only [keysNodup, List.map_cons, List.nodup_cons] at hnd
    by_cases ha : a = k
    · subst ha
      rw [lookupK_cons_eq rfl] at h
      injection h with h2
      subst h2
      by_cases hp : p (a, b)
      · rw [List.filter_cons, if_pos hp, lookupK_cons_eq rfl, if_pos hp]
      · rw [List.filter_cons, if_neg hp, if_neg hp]
        exact lookupK_filter_none p (lookupK_none_of_not_mem_keys hnd.1)
    · rw [lookupK_cons_ne ha] at h
      by_cases hp : p (a, b)
      · rw [List.filter_cons, if_pos hp, lookupK_cons_ne ha]
        exact ih hnd.2 h
      · rw [List.filter_cons, if_neg hp]
        exact ih hnd.2 h

theorem keysNodup_filter {α : Type} (p : String × α → Bool)
    {l : List (String × α)} (h : keysNodup l) : keysNodup (l.filter p) := by
  simp only [keysNodup] at h ⊢
  exact List.Nodup.sublist (List.Sublist.map Prod.fst (List.filter_sublist l)) h


/-! ## Invariant preservation -/

theorem createShortUrl_error_state {now : Int} {gen : ℕ → Fin 6 → Fin 62}
    {fuel : ℕ} {req : CreateReq} {st : State} {e : CreateErr}
    (h : (createShortUrl now gen fuel req st).1 = .error e) :
    (createShortUrl now gen fuel req st).2 = st := by
  dsimp only [createShortUrl] at h ⊢
  by_cases h1 : truthyStr req.url
  · by_cases h2 : isValidUrl (req.url.getD "")
    · by_cases h3 : validityBad (req.validity.getD 30)
      · simp [h1, h2, h3]
      · rcases hac : allocateCode st gen fuel req.shortcode with e' | code
        · simp [h1, h2, h3, hac]
        · simp [h1, h2, h3, hac] at h
    · simp [h1, h2]
  · simp [h1]

theorem inv_create (now : Int) (gen : ℕ → Fin 6 → Fin 62) (fuel : ℕ)
    (req : CreateReq) (st : State) (h : Inv st) :
    Inv (createShortUrl now gen fuel req st).2 := by
  obtain ⟨hnd1, hnd2, hsync, hclicks⟩ := h
  dsimp only [createShortUrl]
  by_cases h1 : truthyStr req.url
  · by_cases h2 : isValidUrl (req.url.getD "")
    · by_cases h3 : validityBad (req.validity.getD 30)
      · simpa [h1, h2, h3] using ⟨hnd1, hnd2, hsync, hclicks⟩
      · rcases hac : allocateCode st gen fuel req.shortcode with e' | code
        · simpa [h1, h2, h3, hac] using ⟨hnd1, hnd2, hsync, hclicks⟩
        · simp only [h1, h2, h3, hac, Bool.not_true, Bool.false_eq_true, if_false,
            Bool.true_eq_false, if_true, if_neg, ite_false, ite_true]
          refine ⟨?_, ?_, ?_, ?_⟩
          · exact keysNodup_setK _ _ hnd1
          · exact keysNodup_setK _ _ hnd2
          · intro k
            by_cases hk : k = code
            · subst hk
              rw [lookupK_setK_self, lookupK_setK_self]
              rfl
            · rw [lookupK_setK_ne hk, lookupK_setK_ne hk]
              exact hsync k
          · intro k r hr
            by_cases hk : k = code
            · subst hk
              rw [lookupK_setK_self] at hr
              injection hr with hr
              subst hr
              exact ⟨[], lookupK_setK_self _ _ _, rfl⟩
            · rw [lookupK_setK_ne hk] at hr
              obtain ⟨log, hlog, hc⟩ := hclicks k r hr
              exact ⟨log, by rw [lookupK_setK_ne hk]; exact hlog, hc⟩
    · simpa [h1, h2] using ⟨hnd1, hnd2, hsync, hclicks⟩
  · simpa [h1] using ⟨hnd1, hnd2, hsync, hclicks⟩

theorem inv_resolve (now : Int) (meta : ReqMeta) (shortCode : String)
    (st : State) (h : Inv st) : Inv (resolveAndRecord now meta shortCode st).2 := by
  obtain ⟨hnd1, hnd2, hsync, hclicks⟩ := h
  dsimp only [resolveAndRecord]
  rcases hl : lookupK shortCode st.urlDatabase with _ | urlData
  · exact ⟨hnd1, hnd2, hsync, hclicks⟩
  · by_cases hexp : isExpired now urlData.expiry
    · simp only [hexp, if_true]
      refine ⟨keysNodup_delK _ hnd1, keysNodup_delK _ hnd2, ?_, ?_⟩
      · intro k
        by_cases hk : k = shortCode
        · subst hk
          rw [lookupK_delK_self hnd1, lookupK_delK_self hnd2]
          rfl
        · rw [lookupK_delK_ne hk, lookupK_delK_ne hk]
          exact hsync k
      · intro k r hr
        by_cases hk : k = shortCode
        · subst hk
          rw [lookupK_delK_self hnd1] at hr
          exact absurd hr (by simp)
        · rw [lookupK_delK_ne hk] at hr
          obtain ⟨log, hlog, hc⟩ := hclicks k r hr
          exact ⟨log, by rw [lookupK_delK_ne hk]; exact hlog, hc⟩
    · simp only [hexp, Bool.false_eq_true, if_false]
      obtain ⟨log, hlog, hc⟩ := hclicks shortCode urlData hl
      refine ⟨keysNodup_setK _ _ hnd1, keysNodup_setK _ _ hnd2, ?_, ?_⟩
      · intro k
        by_cases hk : k = shortCode
        · subst hk
          rw [lookupK_setK_self, lookupK_setK_self]
          rfl
        · rw [lookupK_setK_ne hk, lookupK_setK_ne hk]
          exact hsync k
      · intro k r hr
        by_cases hk : k = shortCode
        · subst hk
          rw [lookupK_setK_self] at hr
          injection hr with hr
          subst hr
          refine ⟨_, lookupK_setK_self _ _ _, ?_⟩
          simp [hlog, hc]
        · rw [lookupK_setK_ne hk] at hr
          obtain ⟨log', hlog', hc'⟩ := hclicks k r hr
          exact ⟨log', by rw [lookupK_setK_ne hk]; exact hlog', hc'⟩

theorem inv_stats (now : Int) (shortCode : String) (st : State) (h : Inv st) :
    Inv (getStats now shortCode st).2 := by
  obtain ⟨hnd1, hnd2, hsync, hclicks⟩ := h
  dsimp only [getStats]
  rcases hl : lookupK shortCode st.urlDatabase with _ | urlData
  · exact ⟨hnd1, hnd2, hsync, hclicks⟩
  · by_cases hexp : isExpired now urlData.expiry
    · simp only [hexp, if_true]
      refine ⟨keysNodup_delK _ hnd1, keysNodup_delK _ hnd2, ?_, ?_⟩
      · intro k
        by_cases hk : k = shortCode
        · subst hk
          rw [lookupK_delK_self hnd1, lookupK_delK_self hnd2]
          rfl
        · rw [lookupK_delK_ne hk, lookupK_delK_ne hk]
          exact hsync k
      · intro k r hr
        by_cases hk : k = shortCode
        · subst hk
          rw [lookupK_delK_self hnd1] at hr
          exact absurd hr (by simp)
        · rw [lookupK_delK_ne hk] at hr
          obtain ⟨log, hlog, hc⟩ := hclicks k r hr
          exact ⟨log, by rw [lookupK_delK_ne hk]; exact hlog, hc⟩
    · simp only [hexp, Bool.false_eq_true, if_false]
      exact ⟨hnd1, hnd2, hsync, hclicks⟩

theorem inv_sweep (now : Int) (st : State) (h : Inv st) : Inv (sweep now st) := by
  obtain ⟨hnd1, hnd2, hsync, hclicks⟩ := h
  have hdbnd : keysNodup ((sweep now st).urlDatabase) :=
    keysNodup_filter _ hnd1
  have hcand : keysNodup ((sweep now st).clickAnalytics) :=
    keysNodup_delAll _ hnd2
  have main : ∀ k,
      lookupK k (sweep now st).urlDatabase = lookupK k st.urlDatabase ∧
        lookupK k (sweep now st).clickAnalytics = lookupK k st.clickAnalytics ∨
      lookupK k (sweep now st).urlDatabase = none ∧
        lookupK k (sweep now st).clickAnalytics = none := by
    intro k
    dsimp only [sweep]
    rcases hdb : lookupK k st.urlDatabase with _ | r
    · right
      constructor
      · exact lookupK_filter_none _ hdb
      · have hca : lookupK k st.clickAnalytics = none := by
          have := hsync k
          rw [hdb] at this
          exact Option.not_isSome_iff_eq_none.mp (by simp [← this])
        exact lookupK_delAll_none _ hca
    · by_cases hexp : isExpired now r.expiry
      · right
        constructor
        · rw [lookupK_filter_some _ hnd1 hdb]
          simp [hexp]
        · have hmem : k ∈ ((st.urlDatabase.filter fun kv =>
              isExpired now kv.2.expiry).map Prod.fst) := by
            refine List.mem_map.mpr ⟨(k, r), ?_, rfl⟩
            exact List.mem_filter.mpr ⟨lookupK_eq_some_mem hdb, by simpa using hexp⟩
          exact lookupK_delAll_mem hmem hnd2
      · left
        constructor
        · rw [lookupK_filter_some _ hnd1 hdb]
          simp [hexp, hdb]
        · have hnotmem : k ∉ ((st.urlDatabase.filter fun kv =>
              isExpired now kv.2.expiry).map Prod.fst) := by
            intro hmem
            rcases List.mem_map.mp hmem with ⟨xy, hxy, hfst⟩
            obtain ⟨x, y⟩ := xy
            have hx : x = k := hfst
            subst hx
            have hy := List.mem_filter.mp hxy
            have := mem_lookupK_of_nodup hnd1 hy.1
            rw [hdb] at this
            injection this with this
            subst this
            exact hexp (by simpa using hy.2)
          exact lookupK_delAll_not_mem hnotmem _
  refine ⟨hdbnd, hcand, ?_, ?_⟩
  · intro k
    rcases main k with ⟨e1, e2⟩ | ⟨e1, e2⟩
    · rw [e1, e2]; exact hsync k
    · rw [e1, e2]
      rfl
  · intro k r hr
    rcases main k with ⟨e1, e2⟩ | ⟨e1, e2⟩
    · rw [e1] at hr
      obtain ⟨log, hlog, hc⟩ := hclicks k r hr
      exact ⟨log, by rw [e2]; exact hlog, hc⟩
    · rw [e1] at hr
      exact absurd hr (by simp)

theorem inv_init : Inv initState := by
  refine ⟨List.nodup_nil, List.nodup_nil, ?_, ?_⟩
  · intro k; rfl
  · intro k r hr; exact absurd hr (by simp [initState, lookupK])

theorem inv_step {st st' : State} (h : Inv st) (hs : Step st st') : Inv st' := by
  cases hs with
  | create now gen fuel req st => exact inv_create now gen fuel req st h
  | redirect now meta shortCode st => exact inv_resolve now meta shortCode st h
  | stats now shortCode st => exact inv_stats now shortCode st h
  | sweepTick now st => exact inv_sweep now st h

theorem inv_reachable {st : State} (h : Reachable st) : Inv st := by
  induction h with
  | init => exact inv_init
  | step _ hs ih => exact inv_step ih hs


/-! ## Characterisations of the create handler and the allocator -/

theorem createShortUrl_ok {now : Int} {gen : ℕ → Fin 6 → Fin 62} {fuel : ℕ}
    {req : CreateReq} {st : State} {ok : CreateOk}
    (h : (createShortUrl now gen fuel req st).1 = .ok ok) :
    truthyStr req.url = true ∧ isValidUrl (req.url.getD "") = true ∧
    validityBad (req.validity.getD 30) = false ∧
    allocateCode st gen fuel req.shortcode = .ok ok.shortCode ∧
    ok.expiry = now + 60000 * (req.validity.getD 30).num ∧
    (createShortUrl now gen fuel req st).2 =
      { urlDatabase := setK ok.shortCode
          { originalUrl := req.url.getD "", shortCode := ok.shortCode,
            createdAt := now, expiry := ok.expiry, clicks := 0 } st.urlDatabase
        clickAnalytics := setK ok.shortCode [] st.clickAnalytics } := by
  dsimp only [createShortUrl] at h
  by_cases h1 : truthyStr req.url
  · by_cases h2 : isValidUrl (req.url.getD "")
    · by_cases h3 : validityBad (req.validity.getD 30)
      · simp [h1, h2, h3] at h
      · rcases hac : allocateCode st gen fuel req.shortcode with e' | code
        · simp [h1, h2, h3, hac] at h
        · obtain ⟨okc, oke⟩ := ok
          simp only [h1, h2, h3, hac, Bool.not_true, Bool.false_eq_true, if_false,
            Bool.true_eq_false, if_true, ite_false, ite_true] at h
          injection h with h
          injection h with hc he
          subst hc
          subst he
          refine ⟨h1, h2, by simpa using h3, rfl, rfl, ?_⟩
          dsimp only [createShortUrl]
          simp [h1, h2, h3, hac]
    · simp [h1, h2] at h
  · simp [h1] at h

theorem createShortUrl_invalidValidity_iff (now : Int) (gen : ℕ → Fin 6 → Fin 62)
    (fuel : ℕ) (req : CreateReq) (st : State) :
    (createShortUrl now gen fuel req st).1 = .error .invalidValidity ↔
      (truthyStr req.url = true ∧ isValidUrl (req.url.getD "") = true ∧
        validityBad (req.validity.getD 30) = true) := by
  dsimp only [createShortUrl]
  by_cases h1 : truthyStr req.url
  · by_cases h2 : isValidUrl (req.url.getD "")
    · by_cases h3 : validityBad (req.validity.getD 30)
      · simp [h1, h2, h3]
      · rcases hac : allocateCode st gen fuel req.shortcode with e' | code
        · constructor
          · intro h
            simp only [h1, h2, h3, hac, Bool.not_true, Bool.false_eq_true, if_false,
              Bool.true_eq_false, if_true, ite_false, ite_true] at h
            injection h with h
            dsimp only [allocateCode] at hac
            by_cases h4 : truthyStr req.shortcode
            · by_cases h5 : isValidShortCode (req.shortcode.getD "")
              · by_cases h6 : hasK (req.shortcode.getD "") st.urlDatabase
                · simp [h4, h5, h6] at hac
                  rw [← hac] at h
                  exact absurd h (by intro hh; cases hh)
                · simp [h4, h5, h6] at hac
              · simp [h4, h5] at hac
                rw [← hac] at h
                exact absurd h (by intro hh; cases hh)
            · simp only [h4, Bool.false_eq_true, if_false] at hac
              rcases hal : allocLoop st.urlDatabase gen fuel 0 with _ | c
              · rw [hal] at hac
                injection hac with hac
                rw [← hac] at h
                exact absurd h (by intro hh; cases hh)
              · rw [hal] at hac
                cases hac
          · intro ⟨_, _, hcon⟩
            exact absurd hcon (by simp [h3])
        · simp [h1, h2, h3, hac]
    · simp [h1, h2]
  · simp [h1]

theorem createShortUrl_custom_code (now : Int) (gen : ℕ → Fin 6 → Fin 62)
    (fuel : ℕ) (req : CreateReq) (st : State) (sc : String)
    (h1 : truthyStr req.url = true) (h2 : isValidUrl (req.url.getD "") = true)
    (h3 : validityBad (req.validity.getD 30) = false)
    (hsc : req.shortcode = some sc) (hne : sc ≠ "")
    (hfmt : isValidShortCode sc = true) :
    ((createShortUrl now gen fuel req st).1 = .error .collision ↔
      hasK sc st.urlDatabase = true) ∧
    (hasK sc st.urlDatabase = false →
      (createShortUrl now gen fuel req st).1 =
        .ok { shortCode := sc
              expiry := now + 60000 * (req.validity.getD 30).num }) := by
  have htr : truthyStr req.shortcode = true := by
    rw [hsc]
    simp [truthyStr, hne]
  have hget : req.shortcode.getD "" = sc := by rw [hsc]; rfl
  dsimp only [createShortUrl, allocateCode]
  rw [hget]
  by_cases hhas : hasK sc st.urlDatabase
  · simp [h1, h2, h3, htr, hfmt, hhas]
  · simp [h1, h2, h3, htr, hfmt, hhas]

theorem validityBad_false_num_nonneg {q : ℚ} (h : validityBad q = false) :
    0 ≤ q.num := by
  by_cases hq : q = 0
  · subst hq
    simp
  · dsimp only [validityBad] at h
    rw [decide_eq_false hq, Bool.not_false, Bool.true_and] at h
    have hlt : ¬q < 1 := by
      intro hh
      rw [decide_eq_true hh, Bool.or_true] at h
      cases h
    have hq1 : (0 : ℚ) < q := lt_of_lt_of_le one_pos (not_lt.mp hlt)
    exact le_of_lt (Rat.num_pos.mpr hq1)

theorem validityBad_true_iff (q : ℚ) :
    validityBad q = true ↔ (q ≠ 0 ∧ ¬(q.den = 1 ∧ 1 ≤ q)) := by
  dsimp only [validityBad]
  rw [Bool.and_eq_true, Bool.or_eq_true, Bool.not_eq_true', Bool.not_eq_true',
    decide_eq_false_iff_not, decide_eq_false_iff_not, decide_eq_true_eq]
  constructor
  · rintro ⟨h1, h2 | h2⟩
    · exact ⟨h1, fun hh => h2 hh.1⟩
    · exact ⟨h1, fun hh => absurd h2 (not_lt.mpr hh.2)⟩
  · rintro ⟨h1, h2⟩
    refine ⟨h1, ?_⟩
    by_cases hden : q.den = 1
    · exact Or.inr (not_le.mp fun hle => h2 ⟨hden, hle⟩)
    · exact Or.inl hden

theorem generateShortCode_length (roll : Fin 6 → Fin 62) :
    (generateShortCode roll).length = 6 := by
  simp [generateShortCode, String.length]

theorem generateShortCode_alphanum (roll : Fin 6 → Fin 62) :
    (generateShortCode roll).data.all Char.isAlphanum = true := by
  have hchar : ∀ j : Fin 62, (shortCodeChars.getD j.val 'a').isAlphanum = true := by
    decide
  simp only [generateShortCode, List.all_eq_true]
  intro c hc
  rcases List.mem_map.mp hc with ⟨i, _, hi⟩
  rw [← hi]
  exact hchar (roll i)

theorem allocLoop_sound {α : Type} (db : List (String × α))
    (gen : ℕ → Fin 6 → Fin 62) :
    ∀ (fuel i : ℕ) (c : String), allocLoop db gen fuel i = some c →
      (∃ j, c = generateShortCode (gen j)) ∧ hasK c db = false := by
  intro fuel
  induction fuel with
  | zero => intro i c h; cases h
  | succ n ih =>
    intro i c h
    dsimp only [allocLoop] at h
    by_cases hc : hasK (generateShortCode (gen i)) db
    · rw [if_pos hc] at h
      exact ih (i + 1) c h
    · rw [if_neg hc] at h
      injection h with h
      subst h
      exact ⟨⟨i, rfl⟩, Bool.eq_false_iff.mpr hc⟩

theorem allocLoop_total {α : Type} (db : List (String × α))
    (gen : ℕ → Fin 6 → Fin 62) :
    ∀ (fuel i : ℕ),
      (∃ j, j < fuel ∧ hasK (generateShortCode (gen (i + j))) db = false) →
      ∃ c, allocLoop db gen fuel i = some c := by
  intro fuel
  induction fuel with
  | zero =>
    intro i h
    obtain ⟨j, hj, _⟩ := h
    exact absurd hj (Nat.not_lt_zero j)
  | succ n ih =>
    intro i h
    dsimp only [allocLoop]
    by_cases hc : hasK (generateShortCode (gen i)) db
    · rw [if_pos hc]
      obtain ⟨j, hj, hfree⟩ := h
      rcases j with _ | j'
      · rw [Nat.add_zero] at hfree
        rw [hfree] at hc
        cases hc
      · refine ih (i + 1) ⟨j', Nat.lt_of_succ_lt_succ hj, ?_⟩
        have : i + 1 + j' = i + (j' + 1) := by omega
        rw [this]
        exact hfree
    · rw [if_neg hc]
      exact ⟨generateShortCode (gen i), rfl⟩


/-! ## The claims -/

/-- C1 (counterexample): at the exact instant `now = expiry` (instant 5 for
`recEx5`) the claim demands `Expired` behaviour on every read path, but the
source's `isExpired` uses strict `>`: the redirect succeeds, the stats call
succeeds, and the record is still listed by `GET /api/urls`. -/
theorem claim_c1_counterexample :
    lookupK "abc" stEx5.urlDatabase = some recEx5 ∧ recEx5.expiry ≤ 5 ∧
    (resolveAndRecord 5 metaNone "abc" stEx5).1 = .ok "https://example.com" ∧
    (getStats 5 "abc" stEx5).1 = .ok
      { clicks := 0, originalUrl := "https://example.com", createdAt := 0,
        expiry := 5, clickData := [] } ∧
    (listActive 5 "http://h" stEx5).map ActiveEntry.shortCode = ["abc"] :=
  ⟨rfl, by decide, rfl, rfl, rfl⟩

/-- C1 (amended): a record is visible/usable only while `now <= expiry`:
when `now > expiry` (strictly), `resolveAndRecord` and `getStats` delete the
record from both maps (lazy expiry) and fail with `Expired`, which is
distinct from `NotFound` (mapped to 410 vs 404), and the record is absent
from `listActive`, even before the sweep runs. -/
theorem claim_c1 (now : Int) (meta : ReqMeta) (host shortCode : String)
    (st : State) (r : UrlRecord)
    (hnd1 : keysNodup st.urlDatabase) (hnd2 : keysNodup st.clickAnalytics)
    (hl : lookupK shortCode st.urlDatabase = some r) (hexp : r.expiry < now) :
    (resolveAndRecord now meta shortCode st).1 = .error .expired ∧
    lookupK shortCode (resolveAndRecord now meta shortCode st).2.urlDatabase = none ∧
    lookupK shortCode (resolveAndRecord now meta shortCode st).2.clickAnalytics = none ∧
    (getStats now shortCode st).1 = .error .expired ∧
    lookupK shortCode (getStats now shortCode st).2.urlDatabase = none ∧
    lookupK shortCode (getStats now shortCode st).2.clickAnalytics = none ∧
    (∀ e ∈ listActive now host st, e.shortCode ≠ shortCode) ∧
    statusOf .expired = 410 ∧ statusOf .notFound = 404 ∧
    ResolveErr.expired ≠ ResolveErr.notFound := by
  have hexpB : isExpired now r.expiry = true := decide_eq_true hexp
  have hres : resolveAndRecord now meta shortCode st =
      (.error .expired,
       { urlDatabase := delK shortCode st.urlDatabase
         clickAnalytics := delK shortCode st.clickAnalytics }) := by
    dsimp only [resolveAndRecord]
    rw [hl]
    simp [hexpB]
  have hst : getStats now shortCode st =
      (.error .expired,
       { urlDatabase := delK shortCode st.urlDatabase
         clickAnalytics := delK shortCode st.clickAnalytics }) := by
    dsimp only [getStats]
    rw [hl]
    simp [hexpB]
  refine ⟨by rw [hres], by rw [hres]; exact lookupK_delK_self hnd1,
    by rw [hres]; exact lookupK_delK_self hnd2,
    by rw [hst], by rw [hst]; exact lookupK_delK_self hnd1,
    by rw [hst]; exact lookupK_delK_self hnd2, ?_, rfl, rfl, by decide⟩
  intro e he heq
  dsimp only [listActive] at he
  rcases List.mem_filterMap.mp he with ⟨kv, hkv, hif⟩
  obtain ⟨a, r2⟩ := kv
  by_cases hx : isExpired now r2.expiry
  · rw [if_pos hx] at hif
    cases hif
  · rw [if_neg hx] at hif
    injection hif with hif
    have ha : a = shortCode := by
      rw [← hif] at heq
      exact heq
    subst ha
    have hlk := mem_lookupK_of_nodup hnd1 hkv
    rw [hl] at hlk
    injection hlk with hlk
    subst hlk
    rw [hexpB] at hx
    exact hx rfl

/-- C1 (witness): a store holding a record that expired at instant 0, read
at instant 7. -/
theorem claim_c1_witness :
    (resolveAndRecord 7 metaNone "abc" stExp0).1 = .error .expired ∧
    lookupK "abc" (resolveAndRecord 7 metaNone "abc" stExp0).2.urlDatabase = none ∧
    (getStats 7 "abc" stExp0).1 = .error .expired ∧
    (∀ e ∈ listActive 7 "http://h" stExp0, e.shortCode ≠ "abc") := by
  have h := claim_c1 7 metaNone "http://h" "abc" stExp0 recExp0
    (by decide) (by decide) rfl (by decide)
  exact ⟨h.1, h.2.1, h.2.2.2.1, h.2.2.2.2.2.2.1⟩

/-- C2 (counterexample): `validity = 0` is not a positive integer, so the
claim demands an `InvalidValidity` failure with no insertion; but `0` is
falsy, the check `validity && (...)` is skipped, the call succeeds and a
record (expiring immediately, at `now`) is inserted. -/
theorem claim_c2_counterexample :
    reqZeroValidity.validity = some 0 ∧
    (createShortUrl 0 gen0 1 reqZeroValidity initState).1 =
      .ok { shortCode := "abc", expiry := 0 } ∧
    lookupK "abc" (createShortUrl 0 gen0 1 reqZeroValidity initState).2.urlDatabase =
      some { originalUrl := "https://example.com", shortCode := "abc",
             createdAt := 0, expiry := 0, clicks := 0 } :=
  ⟨rfl, rfl, rfl⟩

/-- C2 (amended): `createShortUrl` fails with `InvalidValidity` (leaving the
store unchanged) exactly when the url passes its checks and the provided
`validityMinutes` is truthy (non-zero) and not a positive integer; falsy
values such as `0` bypass the check entirely; an omitted `validityMinutes`
defaults to 30 minutes in the expiry. -/
theorem claim_c2 (now : Int) (gen : ℕ → Fin 6 → Fin 62) (fuel : ℕ)
    (req : CreateReq) (st : State) :
    ((createShortUrl now gen fuel req st).1 = .error .invalidValidity ↔
      (truthyStr req.url = true ∧ isValidUrl (req.url.getD "") = true ∧
        ∃ q, req.validity = some q ∧ q ≠ 0 ∧ ¬(q.den = 1 ∧ 1 ≤ q))) ∧
    ((createShortUrl now gen fuel req st).1 = .error .invalidValidity →
      (createShortUrl now gen fuel req st).2 = st) ∧
    (req.validity = none → ∀ ok : CreateOk,
      (createShortUrl now gen fuel req st).1 = .ok ok →
        ok.expiry = now + 1800000) := by
  have hval : (validityBad (req.validity.getD 30) = true) ↔
      (∃ q, req.validity = some q ∧ q ≠ 0 ∧ ¬(q.den = 1 ∧ 1 ≤ q)) := by
    rcases hv : req.validity with _ | q
    · rw [show (none : Option ℚ).getD 30 = 30 from rfl]
      constructor
      · intro h
        exact absurd h (by decide)
      · rintro ⟨q, hq, _⟩
        cases hq
    · rw [show (some q).getD 30 = q from rfl, validityBad_true_iff]
      constructor
      · intro h
        exact ⟨q, rfl, h⟩
      · rintro ⟨q', hq', h⟩
        injection hq' with hq'
        subst hq'
        exact h
  refine ⟨?_, fun h => createShortUrl_error_state h, ?_⟩
  · rw [createShortUrl_invalidValidity_iff now gen fuel req st]
    exact and_congr_right fun _ => and_congr_right fun _ => hval
  · intro hnone ok hok
    obtain ⟨_, _, _, _, hexp, _⟩ := createShortUrl_ok hok
    rw [hnone] at hexp
    exact hexp.trans rfl

/-- C2 (witness): the truthy invalid validity `-3` is rejected with
`InvalidValidity` and the store is unchanged. -/
theorem claim_c2_witness :
    (createShortUrl 0 gen0 1 reqNegValidity initState).1 = .error .invalidValidity ∧
    (createShortUrl 0 gen0 1 reqNegValidity initState).2 = initState := by
  have h := claim_c2 0 gen0 1 reqNegValidity initState
  have herr : (createShortUrl 0 gen0 1 reqNegValidity initState).1 =
      .error .invalidValidity :=
    h.1.mpr ⟨by decide, by decide, ⟨-3, rfl, by decide, by decide⟩⟩
  exact ⟨herr, h.2.1 herr⟩

/-- C3 (counterexample): at instant 100 the key `"abc"` of `stExp0` is
expired, hence not live; the claim says creation with that code must then
succeed, but the source checks `urlDatabase.has` (which still holds the
unswept record) and fails with `ShortcodeCollision`. -/
theorem claim_c3_counterexample :
    isExpired 100 recExp0.expiry = true ∧
    (createShortUrl 100 gen0 1 reqBasic stExp0).1 = .error .collision :=
  ⟨rfl, rfl⟩

/-- C3 (amended): for a requested custom shortcode matching
`^[A-Za-z0-9]{3,10}$` (and otherwise valid inputs), creation fails with
`ShortcodeCollision` exactly when the code is a key of the store — live or
expired-but-unswept — and succeeds (with that code) when the key is absent;
the collision is surfaced as-is, with no auto-suffixing. -/
theorem claim_c3 (now : Int) (gen : ℕ → Fin 6 → Fin 62) (fuel : ℕ)
    (req : CreateReq) (st : State) (sc : String)
    (h1 : truthyStr req.url = true) (h2 : isValidUrl (req.url.getD "") = true)
    (h3 : validityBad (req.validity.getD 30) = false)
    (hsc : req.shortcode = some sc) (hne : sc ≠ "")
    (hfmt : isValidShortCode sc = true) :
    ((createShortUrl now gen fuel req st).1 = .error .collision ↔
      hasK sc st.urlDatabase = true) ∧
    (hasK sc st.urlDatabase = false →
      (createShortUrl now gen fuel req st).1 =
        .ok { shortCode := sc
              expiry := now + 60000 * (req.validity.getD 30).num }) :=
  createShortUrl_custom_code now gen fuel req st sc h1 h2 h3 hsc hne hfmt

/-- C3 (witness): requesting `"abc"` fails with a collision while the key is
present (`stExp0`) and succeeds in the empty store. -/
theorem claim_c3_witness :
    (createShortUrl 100 gen0 1 reqBasic stExp0).1 = .error .collision ∧
    (createShortUrl 100 gen0 1 reqBasic initState).1 =
      .ok { shortCode := "abc", expiry := 100 + 1800000 } := by
  have hcol := claim_c3 100 gen0 1 reqBasic stExp0 "abc"
    (by decide) (by decide) (by decide) rfl (by decide) (by decide)
  have hfree := claim_c3 100 gen0 1 reqBasic initState "abc"
    (by decide) (by decide) (by decide) rfl (by decide) (by decide)
  exact ⟨hcol.1.mpr (by decide), hfree.2 (by decide)⟩

/-- C4 (confirmed): whenever `createShortUrl` succeeds, the returned
shortlink decomposes as host-part, slash, shortcode, and resolving that
trailing segment immediately (same instant, while the record is live)
returns the original url. -/
theorem claim_c4 (now : Int) (gen : ℕ → Fin 6 → Fin 62) (fuel : ℕ)
    (req : CreateReq) (st : State) (meta : ReqMeta) (host u : String)
    (ok : CreateOk) (hu : req.url = some u)
    (hok : (createShortUrl now gen fuel req st).1 = .ok ok) :
    shortLinkOf host ok.shortCode = host ++ "/" ++ ok.shortCode ∧
    (resolveAndRecord now meta ok.shortCode
      (createShortUrl now gen fuel req st).2).1 = .ok u := by
  obtain ⟨h1, h2, h3, hac, hexp, hst⟩ := createShortUrl_ok hok
  refine ⟨rfl, ?_⟩
  have hnum : 0 ≤ (req.validity.getD 30).num := validityBad_false_num_nonneg h3
  have hlive : isExpired now ok.expiry = false := by
    dsimp only [isExpired]
    rw [hexp]
    exact decide_eq_false (by omega)
  rw [hst]
  dsimp only [resolveAndRecord]
  rw [lookupK_setK_self]
  simp only [hlive, Bool.false_eq_true, if_false]
  rw [hu]
  rfl

/-- C4 (witness): create `"abc"` for `https://example.com` in the empty
store and resolve it immediately. -/
theorem claim_c4_witness :
    shortLinkOf "http://localhost:3001" "abc" = "http://localhost:3001" ++ "/" ++ "abc" ∧
    (resolveAndRecord 0 metaNone "abc"
      (createShortUrl 0 gen0 1 reqBasic initState).2).1 = .ok "https://example.com" := by
  have h := claim_c4 0 gen0 1 reqBasic initState metaNone "http://localhost:3001"
    "https://example.com" { shortCode := "abc", expiry := 1800000 } rfl rfl
  exact ⟨h.1, h.2⟩

/-- C5 (confirmed): in every reachable store, every record's `clicks` equals
the length of its click log (creation starts both at zero; each successful
redirect appends one event and adds one click; deletions remove both). -/
theorem claim_c5 (st : State) (h : Reachable st) (code : String) (r : UrlRecord)
    (hl : lookupK code st.urlDatabase = some r) :
    ∃ log, lookupK code st.clickAnalytics = some log ∧ r.clicks = log.length :=
  (inv_reachable h).2.2.2 code r hl

/-- C5 (witness): after one creation and one redirect, the record under
`"abc"` has `clicks = 1` and a one-event click log. -/
theorem claim_c5_witness :
    ∃ log, lookupK "abc" st2.clickAnalytics = some log ∧
      ({ originalUrl := "https://example.com", shortCode := "abc", createdAt := 0,
         expiry := 1800000, clicks := 1 } : UrlRecord).clicks = log.length := by
  have h1 : Reachable st1 :=
    Reachable.step Reachable.init (Step.create 0 gen0 1 reqBasic initState)
  have h2 : Reachable st2 :=
    Reachable.step h1 (Step.redirect 1 metaNone "abc" st1)
  exact claim_c5 st2 h2 "abc"
    { originalUrl := "https://example.com", shortCode := "abc", createdAt := 0,
      expiry := 1800000, clicks := 1 } rfl

/-- C6 (counterexample): at `now = expiry` (instant 5 for `recEx5`) the
claim demands removal by the sweep, but the source's strict `>` keeps the
record: the sweep leaves the store unchanged. -/
theorem claim_c6_counterexample :
    lookupK "abc" stEx5.urlDatabase = some recEx5 ∧ recEx5.expiry ≤ 5 ∧
    sweep 5 stEx5 = stEx5 ∧
    lookupK "abc" (sweep 5 stEx5).urlDatabase = some recEx5 :=
  ⟨rfl, by decide, rfl, rfl⟩

/-- C6 (amended): on each sweep tick, every record with `now > expiry`
(strictly) is removed from both maps together with its click log, and every
record with `now <= expiry` is left completely unchanged, its click log
untouched. -/
theorem claim_c6 (now : Int) (st : State) (code : String) (r : UrlRecord)
    (hnd1 : keysNodup st.urlDatabase) (hnd2 : keysNodup st.clickAnalytics)
    (hl : lookupK code st.urlDatabase = some r) :
    (r.expiry < now →
      lookupK code (sweep now st).urlDatabase = none ∧
      lookupK code (sweep now st).clickAnalytics = none) ∧
    (now ≤ r.expiry →
      lookupK code (sweep now st).urlDatabase = some r ∧
      lookupK code (sweep now st).clickAnalytics = lookupK code st.clickAnalytics) := by
  constructor
  · intro hexp
    have hexpB : isExpired now r.expiry = true := decide_eq_true hexp
    constructor
    · dsimp only [sweep]
      rw [lookupK_filter_some _ hnd1 hl]
      simp [hexpB]
    · dsimp only [sweep]
      refine lookupK_delAll_mem ?_ hnd2
      refine List.mem_map.mpr ⟨(code, r), ?_, rfl⟩
      exact List.mem_filter.mpr ⟨lookupK_eq_some_mem hl, by simpa using hexpB⟩
  · intro hexp
    have hexpB : isExpired now r.expiry = false := by
      dsimp only [isExpired]
      exact decide_eq_false (not_lt.mpr hexp)
    constructor
    · dsimp only [sweep]
      rw [lookupK_filter_some _ hnd1 hl]
      simp [hexpB]
    · dsimp only [sweep]
      refine lookupK_delAll_not_mem ?_ _
      intro hmem
      rcases List.mem_map.mp hmem with ⟨xy, hxy, hfst⟩
      obtain ⟨x, y⟩ := xy
      have hx : x = code := hfst
      subst hx
      have h1 := List.mem_filter.mp hxy
      have h2 := mem_lookupK_of_nodup hnd1 h1.1
      rw [hl] at h2
      injection h2 with h2
      subst h2
      have h3 : isExpired now r.expiry = true := by simpa using h1.2
      rw [hexpB] at h3
      cases h3

/-- C6 (witness): sweeping `stMix` at instant 10 removes the expired
`"abc"` record and its click log. -/
theorem claim_c6_witness :
    lookupK "abc" (sweep 10 stMix).urlDatabase = none ∧
    lookupK "abc" (sweep 10 stMix).clickAnalytics = none :=
  (claim_c6 10 stMix "abc" recExp0 (by decide) (by decide) rfl).1 (by decide)

/-- C7 (confirmed): when no code is requested, the allocation loop retries
the 6-character generator until a candidate is free; provided some draw
within the examined fuel is free, the returned code has exactly 6
alphanumeric characters and is distinct from every key already in the
store. -/
theorem claim_c7 (st : State) (gen : ℕ → Fin 6 → Fin 62) (fuel : ℕ)
    (h : ∃ j, j < fuel ∧ hasK (generateShortCode (gen j)) st.urlDatabase = false) :
    ∃ c, allocLoop st.urlDatabase gen fuel 0 = some c ∧
      c.length = 6 ∧ c.data.all Char.isAlphanum = true ∧
      hasK c st.urlDatabase = false := by
  obtain ⟨j, hj, hfree⟩ := h
  obtain ⟨c, hc⟩ := allocLoop_total st.urlDatabase gen fuel 0
    ⟨j, hj, by simpa using hfree⟩
  obtain ⟨⟨j2, hj2⟩, hfree2⟩ := allocLoop_sound st.urlDatabase gen fuel 0 c hc
  subst hj2
  exact ⟨_, hc, generateShortCode_length _, generateShortCode_alphanum _, hfree2⟩

/-- C7 (witness): in `stEx5` (which holds only `"abc"`), the first draw of
`gen0` yields `"aaaaaa"`, which is free. -/
theorem claim_c7_witness :
    ∃ c, allocLoop stEx5.urlDatabase gen0 1 0 = some c ∧
      c.length = 6 ∧ c.data.all Char.isAlphanum = true ∧
      hasK c stEx5.urlDatabase = false :=
  claim_c7 stEx5 gen0 1 ⟨0, by decide, by decide⟩

/-- C8 (confirmed): for a live record, `getStats` mutates nothing and
returns `clicks`, `originalUrl`, `createdAt`, `expiry`, and the click log
mapped through the presentation defaults (`referrer || 'Direct'`,
`location || 'Unknown'`), the stored events being left as they are. -/
theorem claim_c8 (now : Int) (code : String) (st : State) (r : UrlRecord)
    (hl : lookupK code st.urlDatabase = some r) (hlive : now ≤ r.expiry) :
    (getStats now code st).2 = st ∧
    (getStats now code st).1 = .ok
      { clicks := r.clicks, originalUrl := r.originalUrl, createdAt := r.createdAt,
        expiry := r.expiry,
        clickData := ((lookupK code st.clickAnalytics).getD []).map presentClick } := by
  have hexpB : isExpired now r.expiry = false := by
    dsimp only [isExpired]
    exact decide_eq_false (not_lt.mpr hlive)
  constructor
  · dsimp only [getStats]
    rw [hl]
    simp [hexpB]
  · dsimp only [getStats]
    rw [hl]
    simp [hexpB]

/-- C8 (witness): a stored click with a null referrer is rendered with
`referrer = "Direct"` and `location = "Unknown"`, and the store is
untouched. -/
theorem claim_c8_witness :
    (getStats 4 "abc" stClicked).2 = stClicked ∧
    (getStats 4 "abc" stClicked).1 = .ok
      { clicks := 1, originalUrl := "https://example.com", createdAt := 0,
        expiry := 100,
        clickData := [{ timestamp := 3, referrer := "Direct", location := "Unknown" }] } := by
  have h := claim_c8 4 "abc" stClicked recClicked rfl (by decide)
  exact ⟨h.1, h.2⟩

/-- C9 (confirmed): in every reachable store the key set of `urlDatabase`
equals the key set of `clickAnalytics` — no shortcode ever has a record
without a click log or a click log without a record. -/
theorem claim_c9 (st : State) (h : Reachable st) (k : String) :
    (lookupK k st.urlDatabase).isSome = (lookupK k st.clickAnalytics).isSome :=
  (inv_reachable h).2.2.1 k

/-- C9 (witness): after one creation, present and absent keys agree across
the two maps. -/
theorem claim_c9_witness :
    (lookupK "abc" st1.urlDatabase).isSome = (lookupK "abc" st1.clickAnalytics).isSome ∧
    (lookupK "zzz" st1.urlDatabase).isSome = (lookupK "zzz" st1.clickAnalytics).isSome := by
  have h1 : Reachable st1 :=
    Reachable.step Reachable.init (Step.create 0 gen0 1 reqBasic initState)
  exact ⟨claim_c9 st1 h1 "abc", claim_c9 st1 h1 "zzz"⟩

/-- C10 (confirmed): whenever `createShortUrl` fails with a validation
error (missing/invalid url, invalid validity, invalid shortcode format) or
a collision, the store is left completely unchanged. -/
theorem claim_c10 (now : Int) (gen : ℕ → Fin 6 → Fin 62) (fuel : ℕ)
    (req : CreateReq) (st : State) (e : CreateErr)
    (he : (createShortUrl now gen fuel req st).1 = .error e)
    (_hkind : e = .missingUrl ∨ e = .invalidUrl ∨ e = .invalidValidity ∨
      e = .invalidShortcodeFormat ∨ e = .collision) :
    (createShortUrl now gen fuel req st).2 = st :=
  createShortUrl_error_state he

/-- C10 (witness): a request without a url fails with `missingUrl` and
leaves the (non-empty) store exactly as it was. -/
theorem claim_c10_witness :
    (createShortUrl 7 gen0 1 reqNoUrl stEx5).1 = .error .missingUrl ∧
    (createShortUrl 7 gen0 1 reqNoUrl stEx5).2 = stEx5 :=
  ⟨rfl, claim_c10 7 gen0 1 reqNoUrl stEx5 .missingUrl rfl (Or.inl rfl)⟩

end UrlShortener
